import Mathlib

/-!
Shallow embedding of the media-server resource-management core:
the HTTP range-streaming handler (handlers/stream_handler.go),
the bounded TTL cache (services CacheService), and the bounded
worker pool (services/worker_pool.go), together with theorems
checking the specification's claims about them.
-/

namespace MediaServer

/-! ### HTTP response model

A response is a status code, a header map with set/override semantics
(net/http `Header.Set` / `Header.Del`), and a body of raw bytes. -/

abbrev Headers := List (String × String)

/-- Header `Set`: replace the first binding of the key, else append. -/
def setH (h : Headers) (k v : String) : Headers :=
  match h with
  | [] => [(k, v)]
  | (k0, v0) :: t => if k0 = k then (k, v) :: t else (k0, v0) :: setH t k v

/-- Header `Del`: remove every binding of the key. -/
def delH (h : Headers) (k : String) : Headers :=
  h.filter (fun p => p.1 ≠ k)

/-- Header `Get`: first binding of the key, if any. -/
def getH (h : Headers) (k : String) : Option String :=
  match h with
  | [] => none
  | (k0, v0) :: t => if k0 = k then some v0 else getH t k

structure Response where
  status : Nat
  headers : Headers
  body : List Nat
deriving DecidableEq

/-- Bytes of an ASCII string, as written by the Go side (`fmt.Fprintln` etc.). -/
def asciiBytes (s : String) : List Nat :=
  s.data.map Char.toNat

/-- Model of net/http `http.Error(w, msg, code)`: deletes Content-Length,
sets a plain-text Content-Type and X-Content-Type-Options, writes the
status code, and writes `msg` followed by a newline as the body. -/
def httpError (h : Headers) (msg : String) (code : Nat) : Response :=
  let h1 := delH h "Content-Length"
  let h2 := setH h1 "Content-Type" "text/plain; charset=utf-8"
  let h3 := setH h2 "X-Content-Type-Options" "nosniff"
  { status := code, headers := h3, body := asciiBytes msg ++ [10] }

/-! ### String helpers mirroring the Go standard library on char lists -/

/-- `strings.Split` on a one-character separator (Go semantics:
splitting the empty string yields one empty field). -/
def splitOnSep (sep : Char) : List Char → List (List Char)
  | [] => [[]]
  | c :: cs =>
    if c = sep then [] :: splitOnSep sep cs
    else
      match splitOnSep sep cs with
      | [] => [[c]]
      | f :: r => (c :: f) :: r

/-- ASCII whitespace as recognized by `strings.TrimSpace`. -/
def isSpaceCh (c : Char) : Bool :=
  c = ' ' ∨ c = '\t' ∨ c = '\n' ∨ c = '\r'

/-- `strings.TrimSpace` on a char list. -/
def trimSpaceCh (l : List Char) : List Char :=
  ((l.dropWhile isSpaceCh).reverse.dropWhile isSpaceCh).reverse

/-- Digit run to a natural number; `none` if empty or a non-digit occurs. -/
def parseDigits : List Char → Option Nat
  | [] => none
  | l => l.foldl (fun acc c =>
      match acc with
      | none => none
      | some n => if c.isDigit then some (n * 10 + (c.toNat - 48)) else none)
      (some 0)

/-- Model of `strconv.ParseInt(s, 10, 64)`: optional sign, decimal digits,
64-bit range check (out-of-range input is an error). -/
def parseInt64 (l : List Char) : Option Int :=
  match l with
  | [] => none
  | '+' :: rest =>
    match parseDigits rest with
    | none => none
    | some n => if n ≤ 2 ^ 63 - 1 then some (n : Int) else none
  | '-' :: rest =>
    match parseDigits rest with
    | none => none
    | some n => if n ≤ 2 ^ 63 then some (-(n : Int)) else none
  | _ =>
    match parseDigits l with
    | none => none
    | some n => if n ≤ 2 ^ 63 - 1 then some (n : Int) else none

/-! ### Range header parsing (`handleRangeRequest`, parsing phase)

`parseRangeHeader` is the straight-line parsing prefix of
`StreamHandler.handleRangeRequest`: check the `bytes=` form, split on
commas keeping only the first range, split that on `-`, and parse each
bound, with `none` standing for an omitted bound.  On failure it returns
the error message the Go code passes to `http.Error` with status 400. -/

def parseRangeHeader (rangeHeader : String) : Except String (Option Int × Option Int) :=
  let hd := rangeHeader.data
  if ¬ (hd.take 6 = "bytes=".data) then .error "Invalid range header"
  else
    let rangeSpec := hd.drop 6
    let ranges := splitOnSep ',' rangeSpec
    if ranges.length = 0 then .error "Invalid range header"
    else
      let rangeParts := splitOnSep '-' (trimSpaceCh (ranges.headD []))
      if ¬ (rangeParts.length = 2) then .error "Invalid range header"
      else
        let p0 := rangeParts.headD []
        let p1 := (rangeParts.drop 1).headD []
        match (if p0 = [] then some none else (parseInt64 p0).map some) with
        | none => .error "Invalid range start"
        | some so =>
          match (if p1 = [] then some none else (parseInt64 p1).map some) with
          | none => .error "Invalid range end"
          | some eo => .ok (so, eo)

/-- Validation and response phase of `handleRangeRequest`: resolve the
omitted bounds (start defaults to 0, end to fileSize-1), answer 416 with
`Content-Range: bytes */<size>` when unsatisfiable, otherwise 206 with
`Content-Range`, an overridden `Content-Length`, and the requested span
of the file (seek to start, copy end-start+1 bytes). -/
def rangeResponse (basic : Headers) (so eo : Option Int) (fileSize : Int)
    (file : List Nat) : Response :=
  let start := so.getD 0
  let endv := eo.getD (fileSize - 1)
  if start < 0 ∨ endv ≥ fileSize ∨ start > endv then
    httpError (setH basic "Content-Range" ("bytes */" ++ toString fileSize))
      "Range not satisfiable" 416
  else
    let contentLength := endv - start + 1
    let h1 := setH basic "Content-Range"
      ("bytes " ++ toString start ++ "-" ++ toString endv ++ "/" ++ toString fileSize)
    let h2 := setH h1 "Content-Length" (toString contentLength)
    { status := 206, headers := h2,
      body := (file.drop start.toNat).take contentLength.toNat }

/-- `StreamHandler.handleRangeRequest`: parse the Range header (failures
become 400 via `http.Error`), then validate and respond.  `basic` holds
the headers already set by `setBasicStreamingHeaders`. -/
def handleRangeRequest (basic : Headers) (rangeHeader : String) (fileSize : Int)
    (file : List Nat) : Response :=
  match parseRangeHeader rangeHeader with
  | .error msg => httpError basic msg 400
  | .ok (so, eo) => rangeResponse basic so eo fileSize file

/-! ### Bounded cache (`CacheService`)

Time is modelled as an integer instant (nanoseconds); every operation
that calls `time.Now()` takes the instant `now` explicitly.  The Go map
is modelled as an association list in insertion order with map-like
insert (overwrite in place) and delete; Go map iteration order is
arbitrary, and theorems about iteration-dependent behaviour only state
order-independent facts. -/

/-- Cached payloads, as far as `estimateEntrySize` distinguishes them:
strings, byte slices, `models.FileInfo`, and everything else. -/
inductive CacheValue where
  | str : String → CacheValue
  | bytes : List Nat → CacheValue
  | fileInfo : String → String → String → CacheValue
  | other : CacheValue
deriving DecidableEq

structure CacheEntry where
  value : CacheValue
  expiresAt : Int
  accessCount : Int
  lastAccess : Int
deriving DecidableEq

structure CacheState where
  cache : List (String × CacheEntry)
  defaultTTL : Int
  maxSize : Int
  hitCount : Int
  missCount : Int
  evictions : Int
  memoryUsage : Int
  maxMemory : Int
  lastCleanup : Int
deriving DecidableEq

/-- `NewCacheService` (10-minute default TTL in nanoseconds, 1000 items,
50MB memory cap), with `now` the construction instant. -/
def newCacheService (now : Int) : CacheState :=
  { cache := []
    defaultTTL := 600 * 1000000000
    maxSize := 1000
    hitCount := 0
    missCount := 0
    evictions := 0
    memoryUsage := 0
    maxMemory := 50 * 1024 * 1024
    lastCleanup := now }

/-- Map lookup on the association list. -/
def lookupEntry (k : String) : List (String × CacheEntry) → Option CacheEntry
  | [] => none
  | (k0, e) :: t => if k0 = k then some e else lookupEntry k t

/-- Map insert: overwrite the binding in place, else append. -/
def insertEntry (k : String) (e : CacheEntry) :
    List (String × CacheEntry) → List (String × CacheEntry)
  | [] => [(k, e)]
  | (k0, e0) :: t => if k0 = k then (k, e) :: t else (k0, e0) :: insertEntry k e t

/-- Map delete: remove the binding of the key. -/
def deleteEntry (k : String) (c : List (String × CacheEntry)) :
    List (String × CacheEntry) :=
  c.filter (fun p => p.1 ≠ k)

/-- The fold inside `evictLRU`: scan for the least-recently-accessed key,
starting from the zero `time.Time` and the empty sentinel key, taking a
new candidate when none is held yet (`oldestKey == ""`) or when the
entry's last access is strictly before the held one. -/
def evictLRUScan (c : List (String × CacheEntry)) : String × Int :=
  c.foldl
    (fun acc p => if acc.1 = "" ∨ p.2.lastAccess < acc.2 then (p.1, p.2.lastAccess) else acc)
    ("", 0)

/-- `CacheService.evictLRU`: delete the scanned key and count an eviction,
unless the scan still holds the sentinel. -/
def evictLRU (s : CacheState) : CacheState :=
  let oldestKey := (evictLRUScan s.cache).1
  if oldestKey ≠ "" then
    { s with cache := deleteEntry oldestKey s.cache, evictions := s.evictions + 1 }
  else s

/-- `CacheService.SetWithTTL`: evict once if the cache is at or above the
size cap, then insert the fresh entry (zero access count, last access and
expiry measured from `now`). -/
def setWithTTL (now : Int) (k : String) (v : CacheValue) (ttl : Int)
    (s : CacheState) : CacheState :=
  let s1 := if (s.cache.length : Int) ≥ s.maxSize then evictLRU s else s
  let entry : CacheEntry :=
    { value := v, expiresAt := now + ttl, accessCount := 0, lastAccess := now }
  { s1 with cache := insertEntry k entry s1.cache }

/-- `CacheService.Set`: `SetWithTTL` with the default TTL. -/
def cacheSet (now : Int) (k : String) (v : CacheValue) (s : CacheState) : CacheState :=
  setWithTTL now k v s.defaultTTL s

/-- `CacheService.Get`: a missing key is a miss; an entry whose expiry is
strictly before `now` is deleted and counted as a miss; otherwise the
access statistics are updated and the value returned as a hit. -/
def cacheGet (now : Int) (k : String) (s : CacheState) :
    CacheState × Option CacheValue × Bool :=
  match lookupEntry k s.cache with
  | none => ({ s with missCount := s.missCount + 1 }, none, false)
  | some e =>
    if now > e.expiresAt then
      ({ s with cache := deleteEntry k s.cache, missCount := s.missCount + 1 }, none, false)
    else
      let touched : CacheEntry := { e with accessCount := e.accessCount + 1, lastAccess := now }
      ({ s with cache := insertEntry k touched s.cache, hitCount := s.hitCount + 1 },
        some e.value, true)

/-- `CacheService.estimateEntrySize`: 64 bytes of overhead plus a payload
heuristic (string/byte length; FileInfo field lengths plus 64; 256 for
anything else). -/
def estimateEntrySize (e : CacheEntry) : Int :=
  let baseSize : Int := 64
  match e.value with
  | .str v => baseSize + (v.length : Int)
  | .bytes v => baseSize + (v.length : Int)
  | .fileInfo name path ext =>
    baseSize + (name.length : Int) + (path.length : Int) + (ext.length : Int) + 64
  | .other => baseSize + 256

/-- The `entryInfo` record built by `aggressiveCleanup`. -/
structure EntryInfo where
  key : String
  lastAccess : Int
  size : Int
deriving DecidableEq

def mkEntryInfo (p : String × CacheEntry) : EntryInfo :=
  { key := p.1, lastAccess := p.2.lastAccess, size := estimateEntrySize p.2 }

/-- One pass of the exchange sort in `aggressiveCleanup`: carry the value
at position `i` through positions `i+1..`, swapping whenever the carried
last-access time is strictly after the visited one; returns the value
left at position `i` (the minimum) and the re-arranged rest. -/
def exchangePass (x : EntryInfo) : List EntryInfo → EntryInfo × List EntryInfo
  | [] => (x, [])
  | y :: ys =>
    if y.lastAccess < x.lastAccess then
      let r := exchangePass y ys
      (r.1, x :: r.2)
    else
      let r := exchangePass x ys
      (r.1, y :: r.2)

theorem exchangePass_length (x : EntryInfo) (l : List EntryInfo) :
    (exchangePass x l).2.length = l.length := by
  induction l generalizing x with
  | nil => rfl
  | cons y ys ih =>
    by_cases h : y.lastAccess < x.lastAccess <;>
      simp [exchangePass, h, ih]

/-- The nested swap loops of `aggressiveCleanup`, as a functional exchange
sort: each outer step extracts the minimum-last-access element by the
swapping pass and recurses on the remainder.  The fuel argument (the
number of outer iterations left) makes the recursion structural; since
`exchangePass` preserves length, fuel `l.length` never runs out. -/
def exchangeSortFuel : Nat → List EntryInfo → List EntryInfo
  | 0, _ => []
  | _, [] => []
  | n + 1, x :: xs => (exchangePass x xs).1 :: exchangeSortFuel n (exchangePass x xs).2

def exchangeSort (l : List EntryInfo) : List EntryInfo :=
  exchangeSortFuel l.length l

/-- The eviction loop at the end of `aggressiveCleanup`: walk the sorted
entry list; while the memory estimate still exceeds the target, delete
the entry, subtract its size, and count an eviction. -/
def aggLoop (target : Int) :
    List EntryInfo → List (String × CacheEntry) × Int × Int →
    List (String × CacheEntry) × Int × Int
  | [], acc => acc
  | e :: rest, (cache, usage, ev) =>
    if usage ≤ target then (cache, usage, ev)
    else aggLoop target rest (deleteEntry e.key cache, usage - e.size, ev + 1)

/-- `CacheService.aggressiveCleanup`: snapshot every entry's key, last
access and estimated size, sort ascending by last access, then evict
oldest-first until the estimate reaches 80% of the memory cap. -/
def aggressiveCleanup (s : CacheState) : CacheState :=
  let entries := s.cache.map mkEntryInfo
  let sorted := exchangeSort entries
  let targetMemory := s.maxMemory * 80 / 100
  let res := aggLoop targetMemory sorted (s.cache, s.memoryUsage, s.evictions)
  { s with cache := res.1, memoryUsage := res.2.1, evictions := res.2.2 }

/-- Expiry predicate of the sweep: `now.After(entry.ExpiresAt)`. -/
def isExpired (now : Int) (p : String × CacheEntry) : Bool :=
  now > p.2.expiresAt

/-- The entries the sweep finds expired. -/
def expiredEntries (now : Int) (s : CacheState) : List (String × CacheEntry) :=
  s.cache.filter (fun p => isExpired now p)

/-- The freed-byte estimate the sweep accumulates over expired entries. -/
def expiredFreed (now : Int) (s : CacheState) : Int :=
  ((expiredEntries now s).map (fun p => estimateEntrySize p.2)).sum

/-- The entries surviving the sweep's expiry pass. -/
def liveEntries (now : Int) (s : CacheState) : List (String × CacheEntry) :=
  s.cache.filter (fun p => ¬ isExpired now p)

/-- The state after the expiry pass of `cleanup`: expired entries removed
and counted as evictions, the freed estimate subtracted. -/
def postSweep (now : Int) (s : CacheState) : CacheState :=
  { s with
    cache := liveEntries now s,
    evictions := s.evictions + ((expiredEntries now s).length : Int),
    memoryUsage := s.memoryUsage - expiredFreed now s }

/-- `CacheService.cleanup` (the periodic sweep): remove the entries whose
expiry is strictly before `now`, counting evictions and subtracting the
freed size estimate; if the memory estimate still exceeds the cap, run
`aggressiveCleanup`; finally record the sweep instant. -/
def cleanup (now : Int) (s : CacheState) : CacheState :=
  let s1 := postSweep now s
  let s2 := if s1.memoryUsage > s1.maxMemory then aggressiveCleanup s1 else s1
  { s2 with lastCleanup := now }

/-- `CacheService.GetStats`, with `float64` modelled as `ℚ`: the hit rate
is 0 when no request was counted, else hits over total times 100. -/
structure CacheStats where
  size : Nat
  maxSize : Int
  hitCount : Int
  missCount : Int
  hitRate : ℚ
  evictions : Int
  defaultTTL : Int
deriving DecidableEq

def getStats (s : CacheState) : CacheStats :=
  let totalRequests := s.hitCount + s.missCount
  { size := s.cache.length
    maxSize := s.maxSize
    hitCount := s.hitCount
    missCount := s.missCount
    hitRate := if totalRequests > 0
      then (s.hitCount : ℚ) / (totalRequests : ℚ) * 100
      else 0
    evictions := s.evictions
    defaultTTL := s.defaultTTL }

/-- One `Set` call of a sequence (the instant it happens at, key, value, TTL). -/
structure SetOp where
  now : Int
  key : String
  value : CacheValue
  ttl : Int

/-- Apply a sequence of `SetWithTTL` calls in order. -/
def applySets (ops : List SetOp) (s : CacheState) : CacheState :=
  ops.foldl (fun st op => setWithTTL op.now op.key op.value op.ttl st) s

/-! ### Worker pool (`WorkerPool`)

A task's `Function` is abstracted by its identifier (recorded in the
`executed` trace when a worker runs it) and by whether it fails;
`ctxDone` is the caller-supplied cancellation signal, true once it has
fired.  A Go `select` is modelled by the list of its ready branches:
any element may be taken; the `default` branch fires only when the list
is empty.  Sending on a closed channel is a ready branch that panics. -/

structure WPTask where
  id : String
  ctxDone : Bool
  fails : Bool
  hasResult : Bool
deriving DecidableEq

structure PoolState where
  name : String
  workers : Nat
  bufferSize : Nat
  queue : List WPTask
  ctxDone : Bool
  queueClosed : Bool
  status : String
  tasksTotal : Int
  tasksSuccess : Int
  tasksFailed : Int
  executed : List String
deriving DecidableEq

/-- `NewWorkerPool` after `start()` has run: empty queue, live context,
status `running`. -/
def newWorkerPool (name : String) (workers bufferSize : Nat) : PoolState :=
  { name := name
    workers := workers
    bufferSize := bufferSize
    queue := []
    ctxDone := false
    queueClosed := false
    status := "running"
    tasksTotal := 0
    tasksSuccess := 0
    tasksFailed := 0
    executed := [] }

inductive SubmitOutcome where
  | enqueued
  | ctxErr
  | poolErr
  | panicked
  | poolFull
deriving DecidableEq

/-- The `select` of `SubmitWithContext` (also the submission `select` of
`SubmitAndWaitWithContext`): the possible (outcome, next state) pairs.
The send branch is ready when the queue has space or is closed (in which
case taking it panics); the two context branches are ready once the
corresponding context is done; the `default` branch returns the
pool-full error exactly when no branch is ready. -/
def submitStep (s : PoolState) (callerCtxDone : Bool) (t : WPTask) :
    List (SubmitOutcome × PoolState) :=
  let sendReady := s.queueClosed ∨ s.queue.length < s.bufferSize
  let ready :=
    (if sendReady then
      [if s.queueClosed then (SubmitOutcome.panicked, s)
       else (SubmitOutcome.enqueued, { s with queue := s.queue ++ [t] })]
     else [])
    ++ (if callerCtxDone then [(SubmitOutcome.ctxErr, s)] else [])
    ++ (if s.ctxDone then [(SubmitOutcome.poolErr, s)] else [])
  if ready.isEmpty then [(SubmitOutcome.poolFull, s)] else ready

/-- `WorkerPool.processTask`: run the task function to completion and
record the totals; the task's context is never consulted. -/
def processTask (s : PoolState) (t : WPTask) : PoolState :=
  { s with
    executed := s.executed ++ [t.id]
    tasksTotal := s.tasksTotal + 1
    tasksSuccess := s.tasksSuccess + (if t.fails then 0 else 1)
    tasksFailed := s.tasksFailed + (if t.fails then 1 else 0) }

/-- The dequeue branch of the `worker` loop: take the head task off the
queue and process it (unconditionally — the worker checks only the pool
context, never the task's). -/
def workerDequeueStep (s : PoolState) : PoolState :=
  match s.queue with
  | [] => s
  | t :: rest => processTask { s with queue := rest } t

/-- A caller-supplied cancellation signal firing while the task sits in
the queue: the task's context becomes done in place. -/
def fireSignal (id : String) (s : PoolState) : PoolState :=
  { s with queue := s.queue.map (fun t => if t.id = id then { t with ctxDone := true } else t) }

/-- `WorkerPool.Stop`: status to stopping, cancel the pool context, close
the task queue, wait (bounded by 30s) for workers, then status stopped. -/
def stopPool (s : PoolState) : PoolState :=
  { s with status := "stopped", ctxDone := true, queueClosed := true }

inductive WaitOutcome where
  | result (failed : Bool)
  | ctxErr
  | poolErr
deriving DecidableEq

/-- The waiting `select` of `SubmitAndWaitWithContext` after a successful
enqueue: result delivery, the caller's context, and the pool context are
its branches; there is no default, so the caller blocks until one is
ready. `delivered` is `some f` once the task has run (`f` = it failed). -/
def awaitOutcomes (delivered : Option Bool) (callerCtxDone poolCtxDone : Bool) :
    List WaitOutcome :=
  (match delivered with | some f => [WaitOutcome.result f] | none => [])
  ++ (if callerCtxDone then [WaitOutcome.ctxErr] else [])
  ++ (if poolCtxDone then [WaitOutcome.poolErr] else [])

/-- A sequence of submissions under the `select` nondeterminism: each step
takes any ready branch of `submitStep` (with the caller's context live). -/
inductive SubmitSeq : PoolState → List WPTask → List SubmitOutcome → PoolState → Prop where
  | nil (s : PoolState) : SubmitSeq s [] [] s
  | cons {s s1 s2 : PoolState} {t : WPTask} {ts : List WPTask}
      {o : SubmitOutcome} {os : List SubmitOutcome} :
      (o, s1) ∈ submitStep s false t →
      SubmitSeq s1 ts os s2 →
      SubmitSeq s (t :: ts) (o :: os) s2

/-! ### Concrete fixtures used by witnesses and counterexamples -/

/-- A 1000-byte file. -/
def file1000 : List Nat := List.replicate 1000 7

/-- A cache that has seen three hits and one miss. -/
def statsFixture : CacheState := { newCacheService 0 with hitCount := 3, missCount := 1 }

/-- `Set("k", "v", ttl=5)` performed at instant 0 on a fresh cache. -/
def c3Set : CacheState := setWithTTL 0 "k" (CacheValue.str "v") 5 (newCacheService 0)

/-- With the cap lowered to one entry: `Set("")` then `Set("a")`. -/
def c4Run : CacheState :=
  setWithTTL 1 "a" CacheValue.other 10
    (setWithTTL 0 "" CacheValue.other 10 ({ newCacheService 0 with maxSize := 1 }))

/-- With the cap lowered to one entry: `Set("")` filling the cache, then a
second `Set("")` overwriting it at capacity. -/
def c10Full : CacheState :=
  setWithTTL 0 "" CacheValue.other 100 ({ newCacheService 0 with maxSize := 1 })

def c10Run : CacheState := setWithTTL 5 "" (CacheValue.str "w") 10 c10Full

/-- A fresh one-worker pool with a two-slot queue. -/
def pool6 : PoolState := newWorkerPool "file-operations" 1 2

/-- A waiting task that carries a result channel. -/
def task6 : WPTask := { id := "t1", ctxDone := false, fails := false, hasResult := true }

/-- `pool6` after `task6` has been enqueued. -/
def pool6Q : PoolState := { pool6 with queue := [task6] }

/-- A four-worker pool with a two-slot queue, and two tasks to submit. -/
def pool5 : PoolState := newWorkerPool "file-operations" 4 2

def task5a : WPTask := { id := "a", ctxDone := false, fails := false, hasResult := false }

def task5b : WPTask := { id := "b", ctxDone := false, fails := false, hasResult := false }

/-- `pool5` after the first submission. -/
def pool5Mid : PoolState := { pool5 with queue := [task5a] }

/-- `pool5` with its queue full. -/
def pool5Full : PoolState := { pool5 with queue := [task5a, task5b] }

/-- A pool that has been stopped. -/
def pool8 : PoolState := stopPool (newWorkerPool "file-operations" 4 100)

def task8 : WPTask := { id := "late", ctxDone := false, fails := false, hasResult := false }

/-- Three live entries, a memory estimate of 400 bytes and a 100-byte cap:
the sweep finds nothing expired and memory pressure remains. -/
def c7State : CacheState :=
  { newCacheService 0 with
    cache := [("a", ⟨CacheValue.other, 100, 0, 1⟩), ("b", ⟨CacheValue.other, 100, 0, 2⟩),
      ("c", ⟨CacheValue.other, 100, 0, 3⟩)],
    memoryUsage := 400, maxMemory := 100 }

/-- A two-entry cache at a cap of two, with "a" least recently accessed. -/
def c10Good : CacheState :=
  { newCacheService 0 with
    cache := [("a", ⟨CacheValue.other, 100, 0, 0⟩), ("b", ⟨CacheValue.other, 100, 0, 5⟩)],
    maxSize := 2 }

/-- Ordering of `entryInfo` snapshots by last access. -/
def infoLe (a b : EntryInfo) : Prop := a.lastAccess ≤ b.lastAccess

/-! ### Header-map lemmas -/

theorem getH_setH_self (h : Headers) (k v : String) : getH (setH h k v) k = some v := by
  induction h with
  | nil => simp [setH, getH]
  | cons p t ih =>
    obtain ⟨k0, v0⟩ := p
    by_cases hk : k0 = k
    · simp [setH, hk, getH]
    · simp [setH, hk, getH, ih]

theorem getH_setH_ne (h : Headers) (k v k' : String) (hne : k' ≠ k) :
    getH (setH h k v) k' = getH h k' := by
  induction h with
  | nil => simp [setH, getH, Ne.symm hne]
  | cons p t ih =>
    obtain ⟨k0, v0⟩ := p
    by_cases hk : k0 = k
    · subst hk
      simp [setH, getH, Ne.symm hne]
    · simp [setH, hk, getH, ih]

theorem getH_delH_ne (h : Headers) (k k' : String) (hne : k' ≠ k) :
    getH (delH h k) k' = getH h k' := by
  induction h with
  | nil => simp [delH, getH]
  | cons p t ih =>
    obtain ⟨k0, v0⟩ := p
    by_cases hk : k0 = k
    · subst hk
      have : k0 ≠ k' := Ne.symm hne
      simp_all [delH, getH, List.filter]
    · by_cases hk' : k0 = k'
      · simp_all [delH, getH, List.filter]
      · simp_all [delH, getH, List.filter]

/-! ### Association-list lemmas for the cache map -/

theorem lookupEntry_insertEntry_self (k : String) (e : CacheEntry)
    (c : List (String × CacheEntry)) : lookupEntry k (insertEntry k e c) = some e := by
  induction c with
  | nil => simp [insertEntry, lookupEntry]
  | cons p t ih =>
    obtain ⟨k0, e0⟩ := p
    by_cases hk : k0 = k
    · simp [insertEntry, hk, lookupEntry]
    · simp [insertEntry, hk, lookupEntry, ih]

theorem lookupEntry_insertEntry_ne (k k' : String) (e : CacheEntry)
    (c : List (String × CacheEntry)) (hne : k' ≠ k) :
    lookupEntry k' (insertEntry k e c) = lookupEntry k' c := by
  induction c with
  | nil => simp [insertEntry, lookupEntry, Ne.symm hne]
  | cons p t ih =>
    obtain ⟨k0, e0⟩ := p
    by_cases hk : k0 = k
    · subst hk
      simp [insertEntry, lookupEntry, Ne.symm hne]
    · simp [insertEntry, hk, lookupEntry, ih]

theorem lookupEntry_deleteEntry_self (k : String) (c : List (String × CacheEntry)) :
    lookupEntry k (deleteEntry k c) = none := by
  induction c with
  | nil => simp [deleteEntry, lookupEntry]
  | cons p t ih =>
    obtain ⟨k0, e0⟩ := p
    by_cases hk : k0 = k
    · simp_all [deleteEntry, lookupEntry, List.filter]
    · simp_all [deleteEntry, lookupEntry, List.filter]

theorem mem_insertEntry (k : String) (e : CacheEntry) (c : List (String × CacheEntry))
    (p : String × CacheEntry) (hp : p ∈ insertEntry k e c) : p = (k, e) ∨ p ∈ c := by
  induction c with
  | nil => simpa [insertEntry] using hp
  | cons q t ih =>
    obtain ⟨k0, e0⟩ := q
    by_cases hk : k0 = k
    · simp only [insertEntry, hk, if_pos rfl] at hp
      rcases List.mem_cons.mp hp with h | h
      · exact Or.inl h
      · exact Or.inr (List.mem_cons_of_mem _ h)
    · simp only [insertEntry, if_neg hk] at hp
      rcases List.mem_cons.mp hp with h | h
      · exact Or.inr (by simp [h])
      · rcases ih h with h1 | h1
        · exact Or.inl h1
        · exact Or.inr (List.mem_cons_of_mem _ h1)

theorem length_insertEntry_le (k : String) (e : CacheEntry)
    (c : List (String × CacheEntry)) :
    (insertEntry k e c).length ≤ c.length + 1 := by
  induction c with
  | nil => simp [insertEntry]
  | cons q t ih =>
    obtain ⟨k0, e0⟩ := q
    by_cases hk : k0 = k
    · simp [insertEntry, hk]
    · simp only [insertEntry, if_neg hk, List.length_cons]
      omega

theorem length_insertEntry_mem (k : String) (e : CacheEntry)
    (c : List (String × CacheEntry)) (hk : k ∈ c.map Prod.fst) :
    (insertEntry k e c).length = c.length := by
  induction c with
  | nil => simp at hk
  | cons q t ih =>
    obtain ⟨k0, e0⟩ := q
    by_cases h0 : k0 = k
    · simp [insertEntry, h0]
    · have hk' : k ∈ t.map Prod.fst := by
        rcases List.mem_map.mp hk with ⟨p, hpmem, hpk⟩
        rcases List.mem_cons.mp hpmem with h | h
        · exact absurd (by rw [h] at hpk; exact hpk) h0
        · exact List.mem_map.mpr ⟨p, h, hpk⟩
      simp [insertEntry, h0, ih hk']

theorem length_insertEntry_not_mem (k : String) (e : CacheEntry)
    (c : List (String × CacheEntry)) (hk : ¬ k ∈ c.map Prod.fst) :
    (insertEntry k e c).length = c.length + 1 := by
  induction c with
  | nil => simp [insertEntry]
  | cons q t ih =>
    obtain ⟨k0, e0⟩ := q
    by_cases h0 : k0 = k
    · exact absurd (by simp [h0]) hk
    · have hk' : ¬ k ∈ t.map Prod.fst := fun h => hk (by simp [h])
      simp [insertEntry, h0, ih hk']

theorem length_deleteEntry_lt (k : String) (c : List (String × CacheEntry))
    (hk : k ∈ c.map Prod.fst) : (deleteEntry k c).length < c.length := by
  induction c with
  | nil => simp at hk
  | cons q t ih =>
    obtain ⟨k0, e0⟩ := q
    by_cases h0 : k0 = k
    · subst h0
      have hle : (deleteEntry k0 t).length ≤ t.length :=
        List.Sublist.length_le (List.filter_sublist t)
      have hhead : deleteEntry k0 ((k0, e0) :: t) = deleteEntry k0 t := by
        simp [deleteEntry, List.filter_cons]
      rw [hhead]
      simp only [List.length_cons]
      omega
    · have hk' : k ∈ t.map Prod.fst := by
        rcases List.mem_map.mp hk with ⟨p, hpmem, hpk⟩
        rcases List.mem_cons.mp hpmem with h | h
        · exact absurd (by rw [h] at hpk; exact hpk) h0
        · exact List.mem_map.mpr ⟨p, h, hpk⟩
      have := ih hk'
      have hhead : deleteEntry k ((k0, e0) :: t) = (k0, e0) :: deleteEntry k t := by
        simp [deleteEntry, List.filter_cons, h0]
      rw [hhead]
      simp only [List.length_cons]
      omega

theorem length_deleteEntry_nodup (k : String) (c : List (String × CacheEntry))
    (hnd : (c.map Prod.fst).Nodup) (hk : k ∈ c.map Prod.fst) :
    (deleteEntry k c).length + 1 = c.length := by
  induction c with
  | nil => simp at hk
  | cons q t ih =>
    obtain ⟨k0, e0⟩ := q
    simp only [List.map_cons, List.nodup_cons] at hnd
    by_cases h0 : k0 = k
    · subst h0
      have hdel : deleteEntry k0 t = t := by
        apply List.filter_eq_self.mpr
        intro p hp
        simp only [decide_eq_true_eq]
        intro hcontra
        exact hnd.1 (List.mem_map.mpr ⟨p, hp, hcontra⟩)
      have hhead : deleteEntry k0 ((k0, e0) :: t) = deleteEntry k0 t := by
        simp [deleteEntry, List.filter_cons]
      rw [hhead, hdel]
      simp
    · have hk' : k ∈ t.map Prod.fst := by
        rcases List.mem_map.mp hk with ⟨p, hpmem, hpk⟩
        rcases List.mem_cons.mp hpmem with h | h
        · exact absurd (by rw [h] at hpk; exact hpk) h0
        · exact List.mem_map.mpr ⟨p, h, hpk⟩
      have := ih hnd.2 hk'
      have hhead : deleteEntry k ((k0, e0) :: t) = (k0, e0) :: deleteEntry k t := by
        simp [deleteEntry, List.filter_cons, h0]
      rw [hhead]
      simp only [List.length_cons]
      omega

theorem mem_keys_deleteEntry (k k0 : String) (c : List (String × CacheEntry))
    (hne : k ≠ k0) (hk : k ∈ c.map Prod.fst) :
    k ∈ (deleteEntry k0 c).map Prod.fst := by
  rcases List.mem_map.mp hk with ⟨p, hpmem, hpk⟩
  refine List.mem_map.mpr ⟨p, ?_, hpk⟩
  refine List.mem_filter.mpr ⟨hpmem, ?_⟩
  simp [hpk, hne]

theorem key_not_mem_deleteEntry (k : String) (c : List (String × CacheEntry)) :
    ¬ k ∈ (deleteEntry k c).map Prod.fst := by
  intro h
  rcases List.mem_map.mp h with ⟨p, hpmem, hpk⟩
  have := (List.mem_filter.mp hpmem).2
  simp [hpk] at this

theorem mem_deleteEntry (k : String) (c : List (String × CacheEntry))
    (p : String × CacheEntry) (hp : p ∈ deleteEntry k c) : p ∈ c ∧ p.1 ≠ k := by
  have := List.mem_filter.mp hp
  exact ⟨this.1, by simpa using this.2⟩

/-! ### Claim C9 -/

/-- C9: `GetStats` never divides by zero — when `hitCount + missCount = 0`
the returned hit rate is 0, and otherwise it equals
`hitCount / (hitCount + missCount) * 100` (for the non-negative counter
values every reachable state has). -/
theorem claim_C9_stats_hit_rate (s : CacheState)
    (hh : 0 ≤ s.hitCount) (hm : 0 ≤ s.missCount) :
    (s.hitCount + s.missCount = 0 → (getStats s).hitRate = 0) ∧
    (s.hitCount + s.missCount ≠ 0 →
      (getStats s).hitRate = (s.hitCount : ℚ) / ((s.hitCount : ℚ) + (s.missCount : ℚ)) * 100) := by
  constructor
  · intro h0
    simp [getStats, h0]
  · intro hne
    have hpos : 0 < s.hitCount + s.missCount := lt_of_le_of_ne (by omega) (Ne.symm hne)
    simp only [getStats, if_pos hpos]
    push_cast
    ring

/-- C9 witness: three hits and one miss give a 75% hit rate by the formula. -/
theorem claim_C9_stats_hit_rate_witness :
    (statsFixture.hitCount + statsFixture.missCount = 0 → (getStats statsFixture).hitRate = 0) ∧
    (statsFixture.hitCount + statsFixture.missCount ≠ 0 →
      (getStats statsFixture).hitRate =
        (statsFixture.hitCount : ℚ) / ((statsFixture.hitCount : ℚ) + (statsFixture.missCount : ℚ)) * 100) :=
  claim_C9_stats_hit_rate statsFixture (by decide) (by decide)

/-! ### Claim C3 -/

/-- C3 counterexample: `Set(k, v, ttl=5)` at instant 0 followed by
`Get(k)` at instant 5 — a time exactly `ttl` has elapsed, so the claim
demands a miss with deletion and a miss count of one — yet the code's
strict `time.Now().After(expiresAt)` check still returns the value as a
hit, deletes nothing, and counts a hit. -/
theorem claim_C3_counterexample :
    (cacheGet 5 "k" c3Set).2 = (some (CacheValue.str "v"), true) ∧
    (cacheGet 5 "k" c3Set).1.missCount = 0 ∧
    (cacheGet 5 "k" c3Set).1.hitCount = 1 ∧
    ¬ lookupEntry "k" (cacheGet 5 "k" c3Set).1.cache = none := by
  decide

/-- C3 (amended): `Set(k, v, t)` immediately followed by `Get(k)` returns
`(v, true)`; and a `Get(k)` performed strictly more than `t` after the
`Set` (the expiry comparison is strict, so at exactly `t` elapsed the
entry is still served) returns `(_, false)`, deletes the entry as a side
effect, and increments the miss counter. -/
theorem claim_C3_ttl_expiry (s : CacheState) (k : String) (v : CacheValue)
    (t now later : Int) (ht : 0 < t) :
    (cacheGet now k (setWithTTL now k v t s)).2 = (some v, true) ∧
    (later > now + t →
      (cacheGet later k (setWithTTL now k v t s)).2 = (none, false) ∧
      lookupEntry k (cacheGet later k (setWithTTL now k v t s)).1.cache = none ∧
      (cacheGet later k (setWithTTL now k v t s)).1.missCount =
        (setWithTTL now k v t s).missCount + 1) := by
  have hlook : lookupEntry k (setWithTTL now k v t s).cache =
      some { value := v, expiresAt := now + t, accessCount := 0, lastAccess := now } := by
    simp [setWithTTL, lookupEntry_insertEntry_self]
  constructor
  · have hfresh : ¬ now > now + t := by omega
    simp [cacheGet, hlook, hfresh]
  · intro hlate
    have hexp : later > now + t := hlate
    simp [cacheGet, hlook, hexp, lookupEntry_deleteEntry_self]

/-- C3 witness: the amended behaviour at `t = 5`, set at instant 0,
read at instants 0 (hit) and 6 (expired miss). -/
theorem claim_C3_ttl_expiry_witness :
    (cacheGet 0 "k" (setWithTTL 0 "k" (CacheValue.str "v") 5 (newCacheService 0))).2 =
      (some (CacheValue.str "v"), true) ∧
    ((6 : Int) > 0 + 5 →
      (cacheGet 6 "k" (setWithTTL 0 "k" (CacheValue.str "v") 5 (newCacheService 0))).2 =
        (none, false) ∧
      lookupEntry "k"
        (cacheGet 6 "k" (setWithTTL 0 "k" (CacheValue.str "v") 5 (newCacheService 0))).1.cache =
          none ∧
      (cacheGet 6 "k" (setWithTTL 0 "k" (CacheValue.str "v") 5 (newCacheService 0))).1.missCount =
        (setWithTTL 0 "k" (CacheValue.str "v") 5 (newCacheService 0)).missCount + 1) := by
  have h := claim_C3_ttl_expiry (newCacheService 0) "k" (CacheValue.str "v") 5 0 6 (by decide)
  exact ⟨h.1, fun _ => h.2 (by decide)⟩

/-! ### Claim C2 -/

/-- C2 counterexample: at the claim's own example — `S = 1000`,
`Range: bytes=2000-3000` — the handler does return 416 with
`Content-Range: bytes */1000`, but the body is not empty: `http.Error`
writes the diagnostic text `Range not satisfiable` plus a newline. -/
theorem claim_C2_counterexample :
    (handleRangeRequest [] "bytes=2000-3000" 1000 []).status = 416 ∧
    getH (handleRangeRequest [] "bytes=2000-3000" 1000 []).headers "Content-Range" =
      some "bytes */1000" ∧
    ¬ (handleRangeRequest [] "bytes=2000-3000" 1000 []).body = [] := by
  decide

/-- C2 (amended): for every parsed range whose resolved bounds violate
`0 ≤ start`, `end < fileSize` or `start ≤ end`, the handler responds 416
with `Content-Range: bytes */<fileSize>` and the plain-text body
`Range not satisfiable` followed by a newline (written by `http.Error`),
rather than an empty body. -/
theorem claim_C2_range_unsatisfiable
    (basic : Headers) (hdr : String) (so eo : Option Int) (fileSize : Int)
    (file : List Nat)
    (hparse : parseRangeHeader hdr = .ok (so, eo))
    (hbad : so.getD 0 < 0 ∨ eo.getD (fileSize - 1) ≥ fileSize ∨
      so.getD 0 > eo.getD (fileSize - 1)) :
    (handleRangeRequest basic hdr fileSize file).status = 416 ∧
    getH (handleRangeRequest basic hdr fileSize file).headers "Content-Range" =
      some ("bytes */" ++ toString fileSize) ∧
    (handleRangeRequest basic hdr fileSize file).body =
      asciiBytes "Range not satisfiable" ++ [10] := by
  have heq : handleRangeRequest basic hdr fileSize file =
      rangeResponse basic so eo fileSize file := by
    unfold handleRangeRequest
    rw [hparse]
  rw [heq]
  simp only [rangeResponse]
  rw [if_pos hbad]
  refine ⟨rfl, ?_, rfl⟩
  unfold httpError
  rw [getH_setH_ne _ _ _ _ (by decide), getH_setH_ne _ _ _ _ (by decide),
    getH_delH_ne _ _ _ (by decide), getH_setH_self]

/-- C2 witness: the amended statement at the claim's example input. -/
theorem claim_C2_range_unsatisfiable_witness :
    (handleRangeRequest [] "bytes=2000-3000" 1000 file1000).status = 416 ∧
    getH (handleRangeRequest [] "bytes=2000-3000" 1000 file1000).headers "Content-Range" =
      some ("bytes */" ++ toString (1000 : Int)) ∧
    (handleRangeRequest [] "bytes=2000-3000" 1000 file1000).body =
      asciiBytes "Range not satisfiable" ++ [10] :=
  claim_C2_range_unsatisfiable [] "bytes=2000-3000" (some 2000) (some 3000) 1000 file1000
    (by rfl) (by decide)

/-! ### Claim C8 -/

/-- C8 (code bug): after `Stop()` — which cancels the pool context and
closes the task queue — the submission `select` has two ready branches:
the pool-context branch returning an error, and the send-on-closed-channel
branch, which panics.  A `Submit` after `Stop` can therefore crash instead
of returning an error value, contradicting the claim that every
post-`Stop` submission is rejected with an error and never a crash. -/
theorem claim_C8_submit_after_stop_panics :
    pool8.status = "stopped" ∧ pool8.queueClosed = true ∧
    (SubmitOutcome.panicked, pool8) ∈ submitStep pool8 false task8 ∧
    (SubmitOutcome.poolErr, pool8) ∈ submitStep pool8 false task8 := by
  decide

/-! ### Claim C6 -/

/-- C6 counterexample: a task is enqueued on a fresh pool, its
caller-supplied cancellation signal fires while it is still queued, and
the worker then dequeues it — yet the task's function is executed (it
appears in the executed trace), because neither the worker loop nor
`processTask` ever consults the task's context. -/
theorem claim_C6_counterexample :
    (SubmitOutcome.enqueued, pool6Q) ∈ submitStep pool6 false task6 ∧
    ((fireSignal "t1" pool6Q).queue.headD task6).ctxDone = true ∧
    (workerDequeueStep (fireSignal "t1" pool6Q)).executed = ["t1"] ∧
    (workerDequeueStep (fireSignal "t1" pool6Q)).tasksTotal = 1 := by
  decide

/-- C6 (amended): a cancellation signal firing while a task is queued does
not abandon the task — the worker executes the dequeued task's function
even when the task's signal has already fired; the signal is consulted
only while a `SubmitAndWait` caller waits, where it aborts the caller's
wait (a ready branch of the waiting `select`) without removing the task
from the queue. -/
theorem claim_C6_cancellation (s : PoolState) (t : WPTask) (rest : List WPTask)
    (hq : s.queue = t :: rest) (_hfired : t.ctxDone = true) :
    (workerDequeueStep s).executed = s.executed ++ [t.id] ∧
    (workerDequeueStep s).queue = rest ∧
    (∀ poolDone : Bool, WaitOutcome.ctxErr ∈ awaitOutcomes none true poolDone) := by
  refine ⟨?_, ?_, ?_⟩
  · simp [workerDequeueStep, hq, processTask]
  · simp [workerDequeueStep, hq, processTask]
  · intro poolDone
    simp [awaitOutcomes]

/-- C6 witness: the amended statement on the concrete fired-signal pool. -/
theorem claim_C6_cancellation_witness :
    (workerDequeueStep (fireSignal "t1" pool6Q)).executed =
      (fireSignal "t1" pool6Q).executed ++ ["t1"] ∧
    (workerDequeueStep (fireSignal "t1" pool6Q)).queue = [] ∧
    (∀ poolDone : Bool, WaitOutcome.ctxErr ∈ awaitOutcomes none true poolDone) :=
  claim_C6_cancellation (fireSignal "t1" pool6Q)
    { task6 with ctxDone := true } [] (by decide) (by decide)

/-! ### Claim C5 -/

theorem submitSeq_all_enqueued {s : PoolState} {ts : List WPTask}
    {os : List SubmitOutcome} {s2 : PoolState}
    (hseq : SubmitSeq s ts os s2)
    (hclosed : s.queueClosed = false) (hctx : s.ctxDone = false)
    (hlen : s.queue.length + ts.length ≤ s.bufferSize) :
    ∀ o ∈ os, o = SubmitOutcome.enqueued := by
  induction hseq with
  | nil => simp
  | @cons s s1 s2 t ts o os hmem hrest ih =>
    have hlt : s.queue.length < s.bufferSize := by
      simp only [List.length_cons] at hlen
      omega
    have hstep : submitStep s false t =
        [(SubmitOutcome.enqueued, { s with queue := s.queue ++ [t] })] := by
      simp [submitStep, hclosed, hctx, hlt]
    rw [hstep] at hmem
    simp only [List.mem_singleton, Prod.mk.injEq] at hmem
    obtain ⟨ho, hs1⟩ := hmem
    intro o' ho'
    rcases List.mem_cons.mp ho' with h | h
    · rw [h, ho]
    · subst hs1
      refine ih ?_ ?_ ?_ o' h
      · exact hclosed
      · exact hctx
      · simp only [List.length_append, List.length_cons, List.length_nil] at *
        omega

/-- C5: submitting `N ≤ bufferSize` tasks to an idle pool (empty queue,
live contexts) succeeds on every possible execution of the submission
`select` — every outcome is an enqueue — and a `Submit` against a full
queue has `default` as its only path: it returns the pool-full error
deterministically, leaving the state (in particular the queue)
unchanged. -/
theorem claim_C5_submit_admission :
    (∀ (s : PoolState) (ts : List WPTask) (os : List SubmitOutcome) (s2 : PoolState),
      s.queueClosed = false → s.ctxDone = false → s.queue = [] →
      ts.length ≤ s.bufferSize → SubmitSeq s ts os s2 →
      ∀ o ∈ os, o = SubmitOutcome.enqueued) ∧
    (∀ (s : PoolState) (t : WPTask),
      s.queueClosed = false → s.ctxDone = false →
      s.queue.length = s.bufferSize →
      submitStep s false t = [(SubmitOutcome.poolFull, s)]) := by
  constructor
  · intro s ts os s2 hclosed hctx hq hlen hseq
    exact submitSeq_all_enqueued hseq hclosed hctx (by rw [hq]; simpa using hlen)
  · intro s t hclosed hctx hfull
    have hnl : ¬ s.queue.length < s.bufferSize := by omega
    simp [submitStep, hclosed, hctx, hnl]

/-- C5 witness: two submissions fill the two-slot queue of an idle pool
(both enqueued), and a third submission against the full queue returns
exactly the pool-full error. -/
theorem claim_C5_submit_admission_witness :
    (∀ o ∈ [SubmitOutcome.enqueued, SubmitOutcome.enqueued], o = SubmitOutcome.enqueued) ∧
    submitStep pool5Full false task6 = [(SubmitOutcome.poolFull, pool5Full)] := by
  constructor
  · refine claim_C5_submit_admission.1 pool5 [task5a, task5b]
      [SubmitOutcome.enqueued, SubmitOutcome.enqueued] pool5Full
      (by decide) (by decide) (by decide) (by decide) ?_
    exact @SubmitSeq.cons pool5 pool5Mid pool5Full task5a [task5b]
      SubmitOutcome.enqueued [SubmitOutcome.enqueued] (by decide)
      (@SubmitSeq.cons pool5Mid pool5Full pool5Full task5b []
        SubmitOutcome.enqueued [] (by decide) (SubmitSeq.nil pool5Full))
  · exact claim_C5_submit_admission.2 pool5Full task6 (by decide) (by decide) (by decide)

/-! ### The `evictLRU` scan -/

theorem evictLRUScan_go (l : List (String × CacheEntry)) (acc : String × Int)
    (hacc : acc.1 ≠ "") (hkeys : ∀ p ∈ l, p.1 ≠ "") :
    let r := l.foldl
      (fun acc p => if acc.1 = "" ∨ p.2.lastAccess < acc.2 then (p.1, p.2.lastAccess) else acc)
      acc
    r.1 ≠ "" ∧ r.2 ≤ acc.2 ∧ (∀ p ∈ l, r.2 ≤ p.2.lastAccess) ∧
      (r = acc ∨ ∃ p ∈ l, r.1 = p.1 ∧ r.2 = p.2.lastAccess) := by
  induction l generalizing acc with
  | nil => exact ⟨hacc, le_refl _, by simp, Or.inl rfl⟩
  | cons p t ih =>
    simp only [List.foldl_cons]
    have hstep : (if acc.1 = "" ∨ p.2.lastAccess < acc.2 then (p.1, p.2.lastAccess) else acc) =
        (if p.2.lastAccess < acc.2 then (p.1, p.2.lastAccess) else acc) := by
      simp [hacc]
    rw [hstep]
    by_cases hlt : p.2.lastAccess < acc.2
    · rw [if_pos hlt]
      have hp1 : (p.1, p.2.lastAccess).1 ≠ "" := hkeys p (by simp)
      have := ih (p.1, p.2.lastAccess) hp1 (fun q hq => hkeys q (by simp [hq]))
      obtain ⟨h1, h2, h3, h4⟩ := this
      refine ⟨h1, ?_, ?_, ?_⟩
      · exact le_trans h2 (le_of_lt hlt)
      · intro q hq
        rcases List.mem_cons.mp hq with h | h
        · rw [h] at *
          exact h2
        · exact h3 q h
      · rcases h4 with h | ⟨q, hq, hk, hv⟩
        · exact Or.inr ⟨p, by simp, by rw [h]; exact ⟨rfl, rfl⟩⟩
        · exact Or.inr ⟨q, by simp [hq], hk, hv⟩
    · rw [if_neg hlt]
      have := ih acc hacc (fun q hq => hkeys q (by simp [hq]))
      obtain ⟨h1, h2, h3, h4⟩ := this
      refine ⟨h1, h2, ?_, ?_⟩
      · intro q hq
        rcases List.mem_cons.mp hq with h | h
        · rw [h]
          omega
        · exact h3 q h
      · rcases h4 with h | ⟨q, hq, hk, hv⟩
        · exact Or.inl h
        · exact Or.inr ⟨q, by simp [hq], hk, hv⟩

/-- On a nonempty cache whose keys are all nonempty, the scan returns the
key of an entry whose last access is minimal. -/
theorem evictLRUScan_min (c : List (String × CacheEntry)) (hne : c ≠ [])
    (hkeys : ∀ p ∈ c, p.1 ≠ "") :
    ∃ p ∈ c, (evictLRUScan c).1 = p.1 ∧ (evictLRUScan c).2 = p.2.lastAccess ∧
      (evictLRUScan c).1 ≠ "" ∧ ∀ q ∈ c, (evictLRUScan c).2 ≤ q.2.lastAccess := by
  match c, hne with
  | p0 :: t, _ =>
    have hstep : evictLRUScan (p0 :: t) =
        t.foldl (fun acc p =>
          if acc.1 = "" ∨ p.2.lastAccess < acc.2 then (p.1, p.2.lastAccess) else acc)
          (p0.1, p0.2.lastAccess) := by
      simp [evictLRUScan]
    have h0 : (p0.1, p0.2.lastAccess).1 ≠ "" := hkeys p0 (by simp)
    have := evictLRUScan_go t (p0.1, p0.2.lastAccess) h0
      (fun q hq => hkeys q (by simp [hq]))
    obtain ⟨h1, h2, h3, h4⟩ := this
    rw [← hstep] at h1 h2 h3 h4
    rcases h4 with h | ⟨q, hq, hk, hv⟩
    · refine ⟨p0, by simp, by rw [h], by rw [h], h1, ?_⟩
      intro q hq
      rcases List.mem_cons.mp hq with hh | hh
      · rw [hh] at *
        rw [h]
      · exact h3 q hh
    · refine ⟨q, by simp [hq], hk, hv, h1, ?_⟩
      intro r hr
      rcases List.mem_cons.mp hr with hh | hh
      · rw [hh] at *
        exact h2
      · exact h3 r hh

/-! ### Claim C4 -/

/-- C4 counterexample: with the entry cap at one, the `Set` sequence
`Set("")`, `Set("a")` drives the cache to two entries — above
`maxEntries` — because `evictLRU` uses the empty string as its
no-candidate sentinel: scanning the single entry keyed `""` leaves
`oldestKey` equal to `""`, so nothing is evicted before the insert. -/
theorem claim_C4_counterexample :
    c4Run.maxSize = 1 ∧ c4Run.cache.length = 2 ∧ c4Run.evictions = 0 := by
  decide

/-- C4 (amended): for `Set` sequences whose keys are all nonempty (the
empty-string key collides with `evictLRU`'s internal sentinel) and a cap
of at least one, the cache size never exceeds `maxEntries`; whenever
`evictLRU` runs on such a cache it removes a key whose `lastAccessedAt`
is minimal (ties arbitrary) and counts one eviction; and a `Set` on an
existing key overwrites that entry. -/
theorem claim_C4_capacity_lru :
    (∀ (s0 : CacheState) (ops : List SetOp),
      s0.cache = [] → 1 ≤ s0.maxSize → (∀ op ∈ ops, op.key ≠ "") →
      ((applySets ops s0).cache.length : Int) ≤ s0.maxSize) ∧
    (∀ s : CacheState, s.cache ≠ [] → (∀ p ∈ s.cache, p.1 ≠ "") →
      ∃ p ∈ s.cache, (∀ q ∈ s.cache, p.2.lastAccess ≤ q.2.lastAccess) ∧
        (evictLRU s).cache = deleteEntry p.1 s.cache ∧
        (evictLRU s).evictions = s.evictions + 1) ∧
    (∀ (s : CacheState) (k : String) (v : CacheValue) (ttl now : Int),
      lookupEntry k (setWithTTL now k v ttl s).cache =
        some { value := v, expiresAt := now + ttl, accessCount := 0, lastAccess := now }) := by
  have hevict : ∀ s : CacheState, s.cache ≠ [] → (∀ p ∈ s.cache, p.1 ≠ "") →
      ∃ p ∈ s.cache, (∀ q ∈ s.cache, p.2.lastAccess ≤ q.2.lastAccess) ∧
        (evictLRU s).cache = deleteEntry p.1 s.cache ∧
        (evictLRU s).evictions = s.evictions + 1 := by
    intro s hne hkeys
    obtain ⟨p, hp, hk, hv, hnz, hmin⟩ := evictLRUScan_min s.cache hne hkeys
    refine ⟨p, hp, ?_, ?_, ?_⟩
    · intro q hq
      rw [← hv]
      exact hmin q hq
    · simp only [evictLRU, if_pos hnz]
      rw [hk]
    · simp only [evictLRU, if_pos hnz]
  refine ⟨?_, hevict, ?_⟩
  · intro s0 ops h0 hcap hkeys
    -- invariant: all keys nonempty, size bounded, cap unchanged
    suffices h : ∀ (ops : List SetOp) (s : CacheState),
        (∀ op ∈ ops, op.key ≠ "") →
        (∀ p ∈ s.cache, p.1 ≠ "") → ((s.cache.length : Int)) ≤ s.maxSize →
        1 ≤ s.maxSize →
        (∀ p ∈ (applySets ops s).cache, p.1 ≠ "") ∧
          ((applySets ops s).cache.length : Int) ≤ s.maxSize by
      have := h ops s0 hkeys (by simp [h0]) (by simp [h0]; omega) hcap
      exact this.2
    intro ops
    induction ops with
    | nil => intro s _ hk hlen _; exact ⟨hk, hlen⟩
    | cons op rest ih =>
      intro s hops hk hlen hcap1
      have hopk : op.key ≠ "" := hops op (by simp)
      -- one setWithTTL step preserves the invariant
      have hstep : (∀ p ∈ (setWithTTL op.now op.key op.value op.ttl s).cache, p.1 ≠ "") ∧
          (((setWithTTL op.now op.key op.value op.ttl s).cache.length : Int) ≤ s.maxSize) := by
        by_cases htrig : (s.cache.length : Int) ≥ s.maxSize
        · -- eviction branch
          have hnl : s.cache ≠ [] := by
            intro hnil
            rw [hnil] at htrig
            simp at htrig
            omega
          obtain ⟨p, hp, _, hcache, _⟩ := hevict s hnl hk
          have hdel : (deleteEntry p.1 s.cache).length < s.cache.length :=
            length_deleteEntry_lt p.1 s.cache (List.mem_map.mpr ⟨p, hp, rfl⟩)
          constructor
          · intro q hq
            simp only [setWithTTL, if_pos htrig] at hq
            rcases mem_insertEntry _ _ _ q hq with h | h
            · rw [h]
              exact hopk
            · rw [hcache] at h
              exact hk q (mem_deleteEntry _ _ _ h).1
          · simp only [setWithTTL, if_pos htrig]
            rw [hcache]
            have hins := length_insertEntry_le op.key
              { value := op.value, expiresAt := op.now + op.ttl, accessCount := 0,
                lastAccess := op.now } (deleteEntry p.1 s.cache)
            omega
        · -- no eviction
          constructor
          · intro q hq
            simp only [setWithTTL, if_neg htrig] at hq
            rcases mem_insertEntry _ _ _ q hq with h | h
            · rw [h]
              exact hopk
            · exact hk q h
          · simp only [setWithTTL, if_neg htrig]
            have hins := length_insertEntry_le op.key
              { value := op.value, expiresAt := op.now + op.ttl, accessCount := 0,
                lastAccess := op.now } s.cache
            have hlt2 : ¬ (s.cache.length : Int) ≥ s.maxSize := htrig
            omega
      have hmax : (setWithTTL op.now op.key op.value op.ttl s).maxSize = s.maxSize := by
        simp only [setWithTTL]
        by_cases htrig : (s.cache.length : Int) ≥ s.maxSize
        · simp only [if_pos htrig, evictLRU]
          by_cases hz : (evictLRUScan s.cache).1 ≠ "" <;> simp [hz]
        · simp [if_neg htrig]
      have := ih (setWithTTL op.now op.key op.value op.ttl s)
        (fun q hq => hops q (by simp [hq])) hstep.1 (by rw [hmax]; exact hstep.2)
        (by rw [hmax]; exact hcap1)
      rw [hmax] at this
      exact ⟨this.1, this.2⟩
  · intro s k v ttl now
    simp [setWithTTL, lookupEntry_insertEntry_self]

/-- C4 witness: the amended statement at concrete inputs — a three-`Set`
sequence under a cap of two stays within the cap; `evictLRU` on a
two-entry cache removes the older entry; and a `Set` overwrite is
observable through `lookupEntry`. -/
theorem claim_C4_capacity_lru_witness :
    ((applySets [⟨0, "a", CacheValue.other, 10⟩, ⟨1, "b", CacheValue.other, 10⟩,
        ⟨2, "c", CacheValue.other, 10⟩] ({ newCacheService 0 with maxSize := 2 })).cache.length : Int) ≤
      ({ newCacheService 0 with maxSize := 2 } : CacheState).maxSize ∧
    (∃ p ∈ c10Good.cache, (∀ q ∈ c10Good.cache, p.2.lastAccess ≤ q.2.lastAccess) ∧
      (evictLRU c10Good).cache = deleteEntry p.1 c10Good.cache ∧
      (evictLRU c10Good).evictions = c10Good.evictions + 1) ∧
    lookupEntry "k" (setWithTTL 7 "k" (CacheValue.str "w") 3 (newCacheService 0)).cache =
      some { value := CacheValue.str "w", expiresAt := 7 + 3, accessCount := 0, lastAccess := 7 } :=
  ⟨claim_C4_capacity_lru.1 ({ newCacheService 0 with maxSize := 2 })
      [⟨0, "a", CacheValue.other, 10⟩, ⟨1, "b", CacheValue.other, 10⟩,
        ⟨2, "c", CacheValue.other, 10⟩] (by decide) (by decide) (by decide),
    claim_C4_capacity_lru.2.1 c10Good (by decide) (by decide),
    claim_C4_capacity_lru.2.2 (newCacheService 0) "k" (CacheValue.str "w") 3 7⟩

/-! ### Claim C10 -/

/-- C10 counterexample: with the cap at one and the single entry keyed by
the empty string, a `Set` on that same (present) key at capacity evicts
nothing at all — `evictLRU`'s sentinel scan ends on `""` and deletes no
entry, no eviction is counted — and the entry is simply overwritten,
contradicting the claim that an overwrite at capacity always removes the
least-recently-accessed entry first. -/
theorem claim_C10_counterexample :
    c10Full.cache.length = 1 ∧ ((c10Full.cache.length : Int) = c10Full.maxSize) ∧
    lookupEntry "" c10Full.cache ≠ none ∧
    c10Run.evictions = 0 ∧ c10Run.cache.length = 1 ∧
    lookupEntry "" c10Run.cache =
      some { value := CacheValue.str "w", expiresAt := 15, accessCount := 0, lastAccess := 5 } := by
  decide

/-- C10 (amended): on a cache with distinct, nonempty keys holding exactly
`maxEntries` entries, a `Set` on a key `k` already present still evicts an
entry with minimal `lastAccessedAt` before overwriting `k`: one eviction
is counted, `k` maps to the fresh entry afterwards, and when the evicted
key differs from `k` it is gone and the size drops by one, while if `k`
itself was the least-recently-accessed entry the size is unchanged
(deleted and re-inserted). -/
theorem claim_C10_overwrite_at_capacity (s : CacheState) (k : String) (v : CacheValue)
    (ttl now : Int)
    (hsize : (s.cache.length : Int) = s.maxSize)
    (hk : k ∈ s.cache.map Prod.fst)
    (hkeys : ∀ p ∈ s.cache, p.1 ≠ "")
    (hnd : (s.cache.map Prod.fst).Nodup) :
    ∃ p ∈ s.cache,
      (∀ q ∈ s.cache, p.2.lastAccess ≤ q.2.lastAccess) ∧
      (setWithTTL now k v ttl s).evictions = s.evictions + 1 ∧
      lookupEntry k (setWithTTL now k v ttl s).cache =
        some { value := v, expiresAt := now + ttl, accessCount := 0, lastAccess := now } ∧
      (p.1 ≠ k → lookupEntry p.1 (setWithTTL now k v ttl s).cache = none ∧
        (setWithTTL now k v ttl s).cache.length + 1 = s.cache.length) ∧
      (p.1 = k → (setWithTTL now k v ttl s).cache.length = s.cache.length) := by
  have hne : s.cache ≠ [] := by
    intro hnil
    rw [hnil] at hk
    simp at hk
  obtain ⟨p, hp, hkk, hvv, hnz, hmin⟩ := evictLRUScan_min s.cache hne hkeys
  have htrig : (s.cache.length : Int) ≥ s.maxSize := le_of_eq hsize.symm
  have hcache : (setWithTTL now k v ttl s).cache =
      insertEntry k { value := v, expiresAt := now + ttl, accessCount := 0, lastAccess := now }
        (deleteEntry p.1 s.cache) := by
    simp only [setWithTTL, if_pos htrig, evictLRU, if_pos hnz]
    rw [hkk]
  have hev : (setWithTTL now k v ttl s).evictions = s.evictions + 1 := by
    simp only [setWithTTL, if_pos htrig, evictLRU, if_pos hnz]
  refine ⟨p, hp, ?_, hev, ?_, ?_, ?_⟩
  · intro q hq
    rw [← hvv]
    exact hmin q hq
  · rw [hcache]
    exact lookupEntry_insertEntry_self _ _ _
  · intro hpk
    constructor
    · rw [hcache, lookupEntry_insertEntry_ne _ _ _ _ hpk]
      exact lookupEntry_deleteEntry_self _ _
    · rw [hcache]
      have hmem : k ∈ (deleteEntry p.1 s.cache).map Prod.fst :=
        mem_keys_deleteEntry k p.1 s.cache (fun h => hpk h.symm) hk
      rw [length_insertEntry_mem _ _ _ hmem]
      exact length_deleteEntry_nodup p.1 s.cache hnd (List.mem_map.mpr ⟨p, hp, rfl⟩)
  · intro hpk
    rw [hcache, ← hpk]
    have hnot : ¬ p.1 ∈ (deleteEntry p.1 s.cache).map Prod.fst :=
      key_not_mem_deleteEntry p.1 s.cache
    rw [length_insertEntry_not_mem _ _ _ hnot]
    have := length_deleteEntry_nodup p.1 s.cache hnd (List.mem_map.mpr ⟨p, hp, rfl⟩)
    omega

/-- C10 witness: on a two-entry cache at its cap of two, overwriting the
newer key "b" evicts the older "a" and re-binds "b". -/
theorem claim_C10_overwrite_at_capacity_witness :
    ∃ p ∈ c10Good.cache,
      (∀ q ∈ c10Good.cache, p.2.lastAccess ≤ q.2.lastAccess) ∧
      (setWithTTL 9 "b" (CacheValue.str "w") 4 c10Good).evictions = c10Good.evictions + 1 ∧
      lookupEntry "b" (setWithTTL 9 "b" (CacheValue.str "w") 4 c10Good).cache =
        some { value := CacheValue.str "w", expiresAt := 9 + 4, accessCount := 0, lastAccess := 9 } ∧
      (p.1 ≠ "b" → lookupEntry p.1 (setWithTTL 9 "b" (CacheValue.str "w") 4 c10Good).cache = none ∧
        (setWithTTL 9 "b" (CacheValue.str "w") 4 c10Good).cache.length + 1 = c10Good.cache.length) ∧
      (p.1 = "b" → (setWithTTL 9 "b" (CacheValue.str "w") 4 c10Good).cache.length = c10Good.cache.length) :=
  claim_C10_overwrite_at_capacity c10Good "b" (CacheValue.str "w") 4 9
    (by decide) (by decide) (by decide) (by decide)

/-! ### Claim C1 -/

theorem file1000_length : file1000.length = 1000 := by
  rw [show file1000 = List.replicate 1000 7 from rfl, List.length_replicate]

/-- C1: for every file and every Range header parsing to bounds that,
after resolving defaults (omitted start is 0, omitted end is size-1),
satisfy `0 ≤ start ≤ end < size`, the handler responds 206 with
`Content-Range: bytes <start>-<end>/<size>`, `Content-Length`
equal to `end - start + 1`, and a body of exactly the file's bytes from
offset `start` through `end` inclusive. -/
theorem claim_C1_range_partial_content
    (basic : Headers) (hdr : String) (so eo : Option Int) (file : List Nat)
    (hparse : parseRangeHeader hdr = .ok (so, eo))
    (hstart : 0 ≤ so.getD 0)
    (hse : so.getD 0 ≤ eo.getD ((file.length : Int) - 1))
    (hend : eo.getD ((file.length : Int) - 1) < (file.length : Int)) :
    (handleRangeRequest basic hdr (file.length : Int) file).status = 206 ∧
    getH (handleRangeRequest basic hdr (file.length : Int) file).headers "Content-Range" =
      some ("bytes " ++ toString (so.getD 0) ++ "-" ++
        toString (eo.getD ((file.length : Int) - 1)) ++ "/" ++ toString (file.length : Int)) ∧
    getH (handleRangeRequest basic hdr (file.length : Int) file).headers "Content-Length" =
      some (toString (eo.getD ((file.length : Int) - 1) - so.getD 0 + 1)) ∧
    ((handleRangeRequest basic hdr (file.length : Int) file).body.length : Int) =
      eo.getD ((file.length : Int) - 1) - so.getD 0 + 1 ∧
    (∀ i : Nat, (i : Int) < eo.getD ((file.length : Int) - 1) - so.getD 0 + 1 →
      (handleRangeRequest basic hdr (file.length : Int) file).body.getD i 0 =
        file.getD ((so.getD 0).toNat + i) 0) := by
  have heq : handleRangeRequest basic hdr (file.length : Int) file =
      rangeResponse basic so eo (file.length : Int) file := by
    unfold handleRangeRequest
    rw [hparse]
  rw [heq]
  simp only [rangeResponse]
  have hcond : ¬ (so.getD 0 < 0 ∨ eo.getD ((file.length : Int) - 1) ≥ (file.length : Int) ∨
      so.getD 0 > eo.getD ((file.length : Int) - 1)) := by
    push_neg
    exact ⟨hstart, hend, hse⟩
  rw [if_neg hcond]
  have ha : ((so.getD 0).toNat : Int) = so.getD 0 := Int.toNat_of_nonneg hstart
  have hn : (((eo.getD ((file.length : Int) - 1) - so.getD 0 + 1).toNat : Int)) =
      eo.getD ((file.length : Int) - 1) - so.getD 0 + 1 :=
    Int.toNat_of_nonneg (by omega)
  refine ⟨rfl, ?_, ?_, ?_, ?_⟩
  · rw [getH_setH_ne _ _ _ _ (by decide), getH_setH_self]
  · rw [getH_setH_self]
  · simp only [List.length_take, List.length_drop]
    have hle : (eo.getD ((file.length : Int) - 1) - so.getD 0 + 1).toNat ≤
        file.length - (so.getD 0).toNat := by omega
    rw [min_eq_left hle]
    omega
  · intro i hi
    have hi' : i < (eo.getD ((file.length : Int) - 1) - so.getD 0 + 1).toNat := by omega
    rw [List.getD_eq_getElem?_getD, List.getD_eq_getElem?_getD,
      List.getElem?_take, if_pos hi', List.getElem?_drop]

/-- C1 witness: `Range: bytes=500-` on a 1000-byte file — start 500, end
resolved to 999 — yields `Content-Range: bytes 500-999/1000`,
`Content-Length: 500`, and the 500-byte tail of the file. -/
theorem claim_C1_range_partial_content_witness :
    (handleRangeRequest [] "bytes=500-" (file1000.length : Int) file1000).status = 206 ∧
    getH (handleRangeRequest [] "bytes=500-" (file1000.length : Int) file1000).headers
        "Content-Range" =
      some ("bytes " ++ toString ((some (500 : Int)).getD 0) ++ "-" ++
        toString ((none : Option Int).getD ((file1000.length : Int) - 1)) ++ "/" ++
        toString (file1000.length : Int)) ∧
    getH (handleRangeRequest [] "bytes=500-" (file1000.length : Int) file1000).headers
        "Content-Length" =
      some (toString ((none : Option Int).getD ((file1000.length : Int) - 1) -
        (some (500 : Int)).getD 0 + 1)) ∧
    ((handleRangeRequest [] "bytes=500-" (file1000.length : Int) file1000).body.length : Int) =
      (none : Option Int).getD ((file1000.length : Int) - 1) - (some (500 : Int)).getD 0 + 1 ∧
    (∀ i : Nat, (i : Int) < (none : Option Int).getD ((file1000.length : Int) - 1) -
        (some (500 : Int)).getD 0 + 1 →
      (handleRangeRequest [] "bytes=500-" (file1000.length : Int) file1000).body.getD i 0 =
        file1000.getD (((some (500 : Int)).getD 0).toNat + i) 0) :=
  claim_C1_range_partial_content [] "bytes=500-" (some 500) none file1000
    (by rfl) (by decide)
    (by rw [file1000_length]; decide)
    (by rw [file1000_length]; decide)

/-! ### Exchange-sort lemmas for C7 -/

theorem exchangePass_min (x : EntryInfo) (l : List EntryInfo) :
    (exchangePass x l).1.lastAccess ≤ x.lastAccess ∧
      ∀ y ∈ l, (exchangePass x l).1.lastAccess ≤ y.lastAccess := by
  induction l generalizing x with
  | nil => simp [exchangePass]
  | cons y ys ih =>
    by_cases h : y.lastAccess < x.lastAccess
    · simp only [exchangePass, if_pos h]
      obtain ⟨h1, h2⟩ := ih y
      refine ⟨le_trans h1 (le_of_lt h), fun z hz => ?_⟩
      rcases List.mem_cons.mp hz with hh | hh
      · rw [hh] at *
        exact h1
      · exact h2 z hh
    · simp only [exchangePass, if_neg h]
      obtain ⟨h1, h2⟩ := ih x
      refine ⟨h1, fun z hz => ?_⟩
      rcases List.mem_cons.mp hz with hh | hh
      · rw [hh]
        omega
      · exact h2 z hh

theorem exchangePass_perm (x : EntryInfo) (l : List EntryInfo) :
    List.Perm ((exchangePass x l).1 :: (exchangePass x l).2) (x :: l) := by
  induction l generalizing x with
  | nil => simp [exchangePass]
  | cons y ys ih =>
    by_cases h : y.lastAccess < x.lastAccess
    · simp only [exchangePass, if_pos h]
      exact (List.Perm.swap x (exchangePass y ys).1 (exchangePass y ys).2).trans
        ((ih y).cons x)
    · simp only [exchangePass, if_neg h]
      exact ((List.Perm.swap y (exchangePass x ys).1 (exchangePass x ys).2).trans
        ((ih x).cons y)).trans (List.Perm.swap x y ys)

theorem exchangeSortFuel_perm (n : Nat) :
    ∀ l : List EntryInfo, l.length ≤ n → List.Perm (exchangeSortFuel n l) l := by
  induction n with
  | zero =>
    intro l hl
    have : l = [] := List.length_eq_zero.mp (Nat.le_antisymm hl (Nat.zero_le _))
    rw [this]
    simp [exchangeSortFuel]
  | succ n ih =>
    intro l hl
    match l with
    | [] => simp [exchangeSortFuel]
    | x :: xs =>
      simp only [exchangeSortFuel]
      have hlen : (exchangePass x xs).2.length ≤ n := by
        rw [exchangePass_length]
        simpa using hl
      exact ((ih _ hlen).cons _).trans (exchangePass_perm x xs)

theorem exchangeSortFuel_sorted (n : Nat) :
    ∀ l : List EntryInfo, l.length ≤ n → List.Pairwise infoLe (exchangeSortFuel n l) := by
  induction n with
  | zero =>
    intro l _
    simp [exchangeSortFuel]
  | succ n ih =>
    intro l hl
    match l with
    | [] => simp [exchangeSortFuel]
    | x :: xs =>
      simp only [exchangeSortFuel]
      have hlen : (exchangePass x xs).2.length ≤ n := by
        rw [exchangePass_length]
        simpa using hl
      refine List.Pairwise.cons ?_ (ih _ hlen)
      intro y hy
      have hy2 : y ∈ (exchangePass x xs).2 := (exchangeSortFuel_perm n _ hlen).mem_iff.mp hy
      have hyx : y ∈ x :: xs :=
        (exchangePass_perm x xs).mem_iff.mp (List.mem_cons_of_mem _ hy2)
      rcases List.mem_cons.mp hyx with hh | hh
      · rw [hh]
        exact (exchangePass_min x xs).1
      · exact (exchangePass_min x xs).2 y hh

theorem exchangeSort_perm (l : List EntryInfo) : List.Perm (exchangeSort l) l :=
  exchangeSortFuel_perm l.length l le_rfl

theorem exchangeSort_sorted (l : List EntryInfo) : List.Pairwise infoLe (exchangeSort l) :=
  exchangeSortFuel_sorted l.length l le_rfl

/-! ### Eviction-loop lemmas for C7 -/

theorem aggLoop_subset (target : Int) (infos : List EntryInfo) :
    ∀ (cache : List (String × CacheEntry)) (usage ev : Int),
      ∀ q ∈ (aggLoop target infos (cache, usage, ev)).1, q ∈ cache := by
  induction infos with
  | nil =>
    intro cache usage ev q hq
    simpa [aggLoop] using hq
  | cons e rest ih =>
    intro cache usage ev q hq
    by_cases h : usage ≤ target
    · simpa [aggLoop, if_pos h] using hq
    · simp only [aggLoop, if_neg h] at hq
      exact (mem_deleteEntry _ _ _ (ih _ _ _ q hq)).1

theorem aggLoop_reaches (target : Int) (infos : List EntryInfo) :
    ∀ (cache : List (String × CacheEntry)) (usage ev : Int),
      (∀ q ∈ cache, q.1 ∈ infos.map EntryInfo.key) →
      (aggLoop target infos (cache, usage, ev)).2.1 ≤ target ∨
        (aggLoop target infos (cache, usage, ev)).1 = [] := by
  induction infos with
  | nil =>
    intro cache usage ev hcov
    right
    simp only [aggLoop]
    exact List.eq_nil_iff_forall_not_mem.mpr (fun q hq => by simpa using hcov q hq)
  | cons e rest ih =>
    intro cache usage ev hcov
    by_cases h : usage ≤ target
    · left
      simpa [aggLoop, if_pos h] using h
    · simp only [aggLoop, if_neg h]
      apply ih
      intro q hq
      have hqc := mem_deleteEntry _ _ _ hq
      have hmem := hcov q hqc.1
      simp only [List.map_cons, List.mem_cons] at hmem
      rcases hmem with hh | hh
      · exact absurd hh hqc.2
      · exact hh

theorem aggLoop_oldest (target : Int) (infos : List EntryInfo) :
    ∀ (cache : List (String × CacheEntry)) (usage ev : Int),
      List.Pairwise infoLe infos → (infos.map EntryInfo.key).Nodup →
      (∀ q ∈ cache, ∃ i ∈ infos, i.key = q.1 ∧ i.lastAccess = q.2.lastAccess) →
      ∀ p ∈ cache, (∀ q ∈ (aggLoop target infos (cache, usage, ev)).1, q.1 ≠ p.1) →
      ∀ q ∈ (aggLoop target infos (cache, usage, ev)).1, p.2.lastAccess ≤ q.2.lastAccess := by
  induction infos with
  | nil =>
    intro cache usage ev _ _ _ p hp hevict q hq
    exact absurd rfl (hevict p (by simpa [aggLoop] using hp))
  | cons e rest ih =>
    intro cache usage ev hsort hnd hcov p hp hevict q hq
    by_cases h : usage ≤ target
    · simp only [aggLoop, if_pos h] at hevict
      exact absurd rfl (hevict p hp)
    · simp only [aggLoop, if_neg h] at hevict hq ⊢
      have hq_sub : q ∈ deleteEntry e.key cache := aggLoop_subset target rest _ _ _ q hq
      have hq_cache := mem_deleteEntry _ _ _ hq_sub
      by_cases hpk : p.1 = e.key
      · obtain ⟨ip, hip, hipk, hipla⟩ := hcov p hp
        have hipe : ip = e := by
          rcases List.mem_cons.mp hip with hh | hh
          · exact hh
          · exfalso
            simp only [List.map_cons, List.nodup_cons] at hnd
            exact hnd.1 (List.mem_map.mpr ⟨ip, hh, by rw [hipk, hpk]⟩)
        obtain ⟨iq, hiq, hiqk, hiqla⟩ := hcov q hq_cache.1
        have hiqr : iq ∈ rest := by
          rcases List.mem_cons.mp hiq with hh | hh
          · exact absurd (by rw [← hiqk, hh]) hq_cache.2
          · exact hh
        have hle : infoLe e iq := (List.pairwise_cons.mp hsort).1 iq hiqr
        have hpla : p.2.lastAccess = e.lastAccess := by
          rw [← hipla, hipe]
        rw [hpla, ← hiqla]
        exact hle
      · have hp' : p ∈ deleteEntry e.key cache :=
          List.mem_filter.mpr ⟨hp, by simp [hpk]⟩
        refine ih (deleteEntry e.key cache) (usage - e.size) (ev + 1)
          (List.pairwise_cons.mp hsort).2 ?_ ?_ p hp' hevict q hq
        · simp only [List.map_cons, List.nodup_cons] at hnd
          exact hnd.2
        · intro q' hq'
          obtain ⟨i, hi, hik, hila⟩ := hcov q' (mem_deleteEntry _ _ _ hq').1
          have hir : i ∈ rest := by
            rcases List.mem_cons.mp hi with hh | hh
            · exact absurd (by rw [← hik, hh]) (mem_deleteEntry _ _ _ hq').2
            · exact hh
          exact ⟨i, hir, hik, hila⟩

/-! ### Claim C7 -/

/-- C7: whenever the sweep's expiry pass leaves the estimated memory usage
above `maxMemoryBytes`, `cleanup` runs the aggressive pass: the surviving
entries are a subset of the post-sweep entries, eviction is oldest-first
— any evicted entry's `lastAccessedAt` is at most that of every survivor
— and it stops only once the estimate is at most 80% of `maxMemoryBytes`
or the cache has been emptied. -/
theorem claim_C7_aggressive_cleanup (s : CacheState) (now : Int)
    (hnd : (s.cache.map Prod.fst).Nodup)
    (hmem : s.memoryUsage - expiredFreed now s > s.maxMemory) :
    ((cleanup now s).memoryUsage ≤ s.maxMemory * 80 / 100 ∨ (cleanup now s).cache = []) ∧
    (∀ q ∈ (cleanup now s).cache, q ∈ liveEntries now s) ∧
    (∀ p ∈ liveEntries now s, (∀ q ∈ (cleanup now s).cache, q.1 ≠ p.1) →
      ∀ q ∈ (cleanup now s).cache, p.2.lastAccess ≤ q.2.lastAccess) := by
  have h1 : (postSweep now s).memoryUsage > (postSweep now s).maxMemory := hmem
  have hclean : cleanup now s =
      { aggressiveCleanup (postSweep now s) with lastCleanup := now } := by
    simp only [cleanup]
    rw [if_pos h1]
  have hac_cache : (cleanup now s).cache =
      (aggLoop ((postSweep now s).maxMemory * 80 / 100)
        (exchangeSort ((postSweep now s).cache.map mkEntryInfo))
        ((postSweep now s).cache, (postSweep now s).memoryUsage,
          (postSweep now s).evictions)).1 := by
    rw [hclean]
    simp [aggressiveCleanup]
  have hac_mem : (cleanup now s).memoryUsage =
      (aggLoop ((postSweep now s).maxMemory * 80 / 100)
        (exchangeSort ((postSweep now s).cache.map mkEntryInfo))
        ((postSweep now s).cache, (postSweep now s).memoryUsage,
          (postSweep now s).evictions)).2.1 := by
    rw [hclean]
    simp [aggressiveCleanup]
  have hperm : List.Perm (exchangeSort ((postSweep now s).cache.map mkEntryInfo))
      ((postSweep now s).cache.map mkEntryInfo) := exchangeSort_perm _
  have hkeyeq : ((postSweep now s).cache.map mkEntryInfo).map EntryInfo.key =
      (postSweep now s).cache.map Prod.fst := by
    rw [List.map_map]
    rfl
  have hndlive : ((postSweep now s).cache.map Prod.fst).Nodup :=
    hnd.sublist ((List.filter_sublist s.cache).map Prod.fst)
  have hnds : ((exchangeSort ((postSweep now s).cache.map mkEntryInfo)).map
      EntryInfo.key).Nodup :=
    (hperm.map EntryInfo.key).nodup_iff.mpr (by rw [hkeyeq]; exact hndlive)
  have hcov : ∀ q ∈ (postSweep now s).cache,
      ∃ i ∈ exchangeSort ((postSweep now s).cache.map mkEntryInfo),
        i.key = q.1 ∧ i.lastAccess = q.2.lastAccess := by
    intro q hq
    exact ⟨mkEntryInfo q, hperm.mem_iff.mpr (List.mem_map.mpr ⟨q, hq, rfl⟩), rfl, rfl⟩
  have hcovk : ∀ q ∈ (postSweep now s).cache,
      q.1 ∈ (exchangeSort ((postSweep now s).cache.map mkEntryInfo)).map EntryInfo.key := by
    intro q hq
    exact List.mem_map.mpr ⟨mkEntryInfo q,
      hperm.mem_iff.mpr (List.mem_map.mpr ⟨q, hq, rfl⟩), rfl⟩
  refine ⟨?_, ?_, ?_⟩
  · rw [hac_mem, hac_cache]
    exact aggLoop_reaches _ _ _ _ _ hcovk
  · intro q hq
    rw [hac_cache] at hq
    exact aggLoop_subset _ _ _ _ _ q hq
  · intro p hp hevict q hq
    rw [hac_cache] at hevict hq
    exact aggLoop_oldest _ _ _ _ _ (exchangeSort_sorted _) hnds hcov p hp hevict q hq

/-- C7 witness: three live entries estimated at 400 bytes against a
100-byte cap — the aggressive pass evicts the oldest entry and stops at
the 80-byte target with the two newer entries surviving. -/
theorem claim_C7_aggressive_cleanup_witness :
    ((cleanup 0 c7State).memoryUsage ≤ c7State.maxMemory * 80 / 100 ∨
      (cleanup 0 c7State).cache = []) ∧
    (∀ q ∈ (cleanup 0 c7State).cache, q ∈ liveEntries 0 c7State) ∧
    (∀ p ∈ liveEntries 0 c7State, (∀ q ∈ (cleanup 0 c7State).cache, q.1 ≠ p.1) →
      ∀ q ∈ (cleanup 0 c7State).cache, p.2.lastAccess ≤ q.2.lastAccess) :=
  claim_C7_aggressive_cleanup c7State 0 (by decide) (by decide)

end MediaServer
